import Mathlib

/-!
Shallow embedding of `openTSNE/initialization.py` and proofs about it.

Numeric code is embedded over exact fields: `ℚ` where the operations are
field-and-order operations (so definitions stay executable), `ℝ` where square
roots or trigonometric functions occur.  External collaborators (the sparse
eigensolver, the numpy random generator) are modelled as explicit functional
parameters; numpy/python run-time failures are modelled with `Except`.
-/

namespace OpenTSNE

/-! ## Generic list helpers -/

/-- Python slice `l[a:b]` (for the nonnegative indices used in the source). -/
def pySlice {α : Type} (l : List α) (a b : Nat) : List α :=
  (l.drop a).take (b - a)

/-- Smallest element of a nonempty list (`0` for the empty list). -/
def listMinD {α : Type} [LinearOrder α] [Zero α] : List α → α
  | [] => 0
  | x :: xs => xs.foldl min x

/-- Largest element of a nonempty list (`0` for the empty list). -/
def listMaxD {α : Type} [LinearOrder α] [Zero α] : List α → α
  | [] => 0
  | x :: xs => xs.foldl max x

/-- Model of `np.argsort` (ascending): the list of positions of `l` sorted by
the value found at each position.  Ties are resolved by a stable insertion
sort; the claims below never depend on tie order. -/
def argsortAsc {α : Type} [LinearOrder α] [Zero α] (l : List α) : List Nat :=
  @List.insertionSort Nat (fun i j => l.getD i 0 ≤ l.getD j 0)
    (fun _ _ => inferInstance) (List.range l.length)

/-- Model of `np.argsort(eigvals)[::-1]`: positions sorted by decreasing
value. -/
def argsortDesc {α : Type} [LinearOrder α] [Zero α] (l : List α) : List Nat :=
  (argsortAsc l).reverse

/-- Column selection `m[:, order]`: row `i` of the result has entries
`m[i, order[0]], m[i, order[1]], ...`. -/
def colPermute {α : Type} [Zero α] (m : List (List α)) (order : List Nat) :
    List (List α) :=
  m.map (fun row => order.map (fun j => row.getD j 0))

/-- Broadcast product `m *= vals`: entry `(i, j)` is multiplied by `vals[j]`
(the matrices involved have exactly `vals.length` columns). -/
def scaleColsBy {α : Type} [Mul α] (m : List (List α)) (vals : List α) :
    List (List α) :=
  m.map (fun row => (row.zip vals).map (fun p => p.1 * p.2))

/-- Column slice `m[:, 1:]`. -/
def dropLeadingCol {α : Type} (m : List (List α)) : List (List α) :=
  m.map (fun row => row.drop 1)

/-! ## Rescaler (`rescale`), over `ℝ` -/

/-- Arithmetic mean of a list (`np.mean`); `0` for the empty list because in
Lean division by zero is zero. -/
noncomputable def listMean (l : List ℝ) : ℝ := l.sum / l.length

/-- Population standard deviation `np.std`: the square root of the mean
squared deviation from the mean. -/
noncomputable def npStd (l : List ℝ) : ℝ :=
  Real.sqrt (((l.map (fun v => (v - listMean l) ^ 2)).sum) / l.length)

/-- First coordinate column `m[:, 0]` of a row-list matrix. -/
def col0 (m : List (List ℝ)) : List ℝ := m.map (fun row => row.getD 0 0)

/-- Value computed by `rescale`: `x / (np.std(x[:, 0]) * 10000)`, every entry
divided by ten-thousand times the standard deviation of column `0`. -/
noncomputable def rescale (m : List (List ℝ)) : List (List ℝ) :=
  m.map (List.map (fun v => v / (npStd (col0 m) * 10000)))

/-- Euclidean distance between rows `i` and `k` of a row-list matrix (used to
state that rescaling preserves relative positions). -/
noncomputable def rowDist (m : List (List ℝ)) (i k : Nat) : ℝ :=
  Real.sqrt ((((m.getD i []).zip (m.getD k [])).map (fun p => (p.1 - p.2) ^ 2)).sum)

/-- A heap of numpy array buffers; an array reference is an index into the
heap.  This models which buffer a call mutates and which buffer it returns. -/
structure Store where
  bufs : List (List (List ℝ))

/-- Buffer-level embedding of `rescale(x, inplace)`.  With `inplace = true`
the caller's buffer `ref` is overwritten in place (`x /= ...`) and `ref`
itself is returned.  With `inplace = false` the source first copies `x`
(`np.array(x, copy=True)`) into a fresh buffer, divides that fresh buffer in
place, and returns it; the caller's buffer is untouched. -/
noncomputable def rescaleCall (s : Store) (ref : Nat) (inplace : Bool) :
    Store × Nat :=
  let content := s.bufs.getD ref []
  if inplace then (⟨s.bufs.set ref (rescale content)⟩, ref)
  else (⟨s.bufs ++ [rescale content]⟩, s.bufs.length)

/-! ## Random initializer (`random`), over `ℝ` -/

/-- Embedding of `random(X, n_components, random_state)`.  The numpy generator
is modelled by `stream`, where `stream seed t` is the `t`-th Gaussian draw of
the generator seeded with `seed` (a seeded `RandomState` is deterministic).
The source fills an `(X.shape[0], n_components)` array row-major with
consecutive draws; nothing of `X` other than its row count is consulted. -/
def random (stream : Nat → Nat → ℝ) (X : List (List ℝ)) (n_components : Nat)
    (seed : Nat) : List (List ℝ) :=
  (List.range X.length).map (fun i =>
    (List.range n_components).map (fun j => stream seed (i * n_components + j)))

/-! ## Spectral initializer (`spectral`) -/

/-- The two shape-validation errors raised at the top of `spectral`. -/
inductive SpectralError where
  | notTwoDimensional
  | notSquare
deriving DecidableEq

/-- A dense/sparse array together with its stored shape, as needed for the
`A.ndim` and `A.shape` checks of `spectral`. -/
structure NDArray where
  shape : List Nat
  entries : List (List ℝ)

/-- Row sums of a matrix, `np.ravel(np.sum(A, axis=1))` (the diagonal of the
degree matrix `D`). -/
def rowSums (m : List (List ℝ)) : List ℝ := m.map List.sum

/-- Lines 148–156 of the source, the step the claims are about: sort the
eigenvector columns by decreasing eigenvalue (`order = np.argsort(eigvals)[::-1];
eigvecs = eigvecs[:, order]`), then `eigvecs *= eigvals`.  Note the source
permutes only `eigvecs`; `eigvals` stays in the order the solver returned it,
so column `j` of the sorted matrix is multiplied by the unsorted `eigvals[j]`. -/
def spectralScaled {α : Type} [LinearOrder α] [Zero α] [Mul α]
    (eigvals : List α) (eigvecs : List (List α)) : List (List α) :=
  scaleColsBy (colPermute eigvecs (argsortDesc eigvals)) eigvals

/-- Definition following the specification words for claim C1: the eigenPAIRS
are sorted together by decreasing eigenvalue, and each sorted column is then
scaled by its own (equally sorted) eigenvalue. -/
def spectralScaledSpec {α : Type} [LinearOrder α] [Zero α] [Mul α]
    (eigvals : List α) (eigvecs : List (List α)) : List (List α) :=
  scaleColsBy (colPermute eigvecs (argsortDesc eigvals))
    ((argsortDesc eigvals).map (fun j => eigvals.getD j 0))

/-- Eigenvector post-processing of `spectral`: sort, scale, and drop the
leading eigenvector (`embedding = eigvecs[:, 1:]`). -/
def spectralEigPost {α : Type} [LinearOrder α] [Zero α] [Mul α]
    (eigvals : List α) (eigvecs : List (List α)) : List (List α) :=
  dropLeadingCol (spectralScaled eigvals eigvecs)

/-- Embedding of `spectral(A, n_components, ...)`.  The external generalized
eigensolver `sp.linalg.eigsh` is the functional parameter `eigsh`, applied to
the requested pair count `n_components + 1`, the matrix `A` and the degree
diagonal (the deterministic start vector is a function of the size alone).
The two shape checks are the first two statements of the source, before the
degree matrix or anything else is computed. -/
noncomputable def spectral (A : NDArray) (n_components : Nat)
    (eigsh : Nat → List (List ℝ) → List ℝ → List ℝ × List (List ℝ)) :
    Except SpectralError (List (List ℝ)) :=
  if A.shape.length ≠ 2 then Except.error SpectralError.notTwoDimensional
  else if A.shape.getD 0 0 ≠ A.shape.getD 1 0 then Except.error SpectralError.notSquare
  else
    let p := eigsh (n_components + 1) A.entries (rowSums A.entries)
    Except.ok (rescale (spectralEigPost p.1 p.2))

/-! ## Circular random placement (`random_circular_2d`), over `ℝ` -/

/-- A reference `TSNEEmbedding`: an embedding matrix. -/
structure RefEmbedding where
  matrix : List (List ℝ)

/-- Modelled from the spec: `TSNEEmbedding.box_x_lower_bounds` is defined
outside the given source file (in the embedding/quad-tree code); per the spec
the reference embedding exposes "the bounding coordinates of its occupied
region (minimum/maximum extents along the first axis)", its first entry being
the minimum of the embedding's first coordinate column. -/
noncomputable def box_x_lower_bounds_first (e : RefEmbedding) : ℝ :=
  listMinD (col0 e.matrix)

/-- Modelled from the spec: the last entry of `box_x_lower_bounds` is the
maximum extent of the occupied region along the first coordinate axis. -/
noncomputable def box_x_lower_bounds_last (e : RefEmbedding) : ℝ :=
  listMaxD (col0 e.matrix)

/-- Lines 185–188 of the source: `lower_limit = embedding.box_x_lower_bounds[0]`,
`upper_limit = embedding.box_x_lower_bounds[-1]`,
`radius = max(abs(lower_limit), abs(upper_limit))`. -/
noncomputable def circularRadius (e : RefEmbedding) : ℝ :=
  max |box_x_lower_bounds_first e| |box_x_lower_bounds_last e|

/-- Embedding of `random_circular_2d(X, embedding, ...)` for `n = X.shape[0]`
new points.  The uniform draws of the numpy generator are the parameters `u`
(the per-point draw from `uniform(0, radius ** 2)`, used in filled mode, where
`** 0.5` is the square root) and `phi` (the per-point angle draw).  Point `i`
is `(r * sin(phi), r * cos(phi))`. -/
noncomputable def random_circular_2d (n : Nat) (e : RefEmbedding)
    (u phi : Nat → ℝ) (only_boundary : Bool) : List (List ℝ) :=
  (List.range n).map (fun i =>
    let r : ℝ := if only_boundary then circularRadius e else Real.sqrt (u i)
    [r * Real.sin (phi i), r * Real.cos (phi i)])

/-- Euclidean norm of a 2-dimensional point stored as a list. -/
noncomputable def euclidNorm2d (p : List ℝ) : ℝ :=
  Real.sqrt ((p.getD 0 0) ^ 2 + (p.getD 1 0) ^ 2)

/-! ## Weighted-mean extension (`weighted_mean`), over `ℚ` -/

/-- A scipy compressed-sparse-row matrix as used by `weighted_mean`: the
stored `shape` plus the `data`, `indices` and `indptr` arrays. -/
structure CSR where
  shape : Nat × Nat
  data : List ℚ
  indices : List Nat
  indptr : List Nat

/-- Python/numpy run-time failures modelled in this file. -/
inductive NpError where
  | assertionError
  | typeError
  | indexError
deriving DecidableEq

/-- Model of the call `np.average(a, axis=0, weights=w)` exactly as it occurs
in the source's loop body, where `a = embedding[neighbors_i[i]]` is a
one-dimensional row and `w = sim_i[i]` is a zero-dimensional numpy scalar:
since `a.shape != w.shape` and `w.ndim = 0 ≠ 1`, numpy unconditionally raises
`TypeError: 1D weights expected when shapes of a and weights differ.`. -/
def npAverageRowScalarWeight (_a : List ℚ) (_w : ℚ) : Except NpError (List ℚ) :=
  Except.error NpError.typeError

/-- Loop body of `weighted_mean` for row `i`, with python's left-to-right
evaluation and indexing failures: slice the CSR row
(`neighbors_i = P.indices[P.indptr[i]:P.indptr[i+1]]`, likewise `sim_i`),
then evaluate `np.average(embedding[neighbors_i[i]], axis=0, weights=sim_i[i])`
— note the source indexes `neighbors_i[i]` and `sim_i[i]`, not the full
slices. -/
def weightedMeanRow (embedding : List (List ℚ)) (P : CSR) (i : Nat) :
    Except NpError (List ℚ) :=
  let neighbors_i := pySlice P.indices (P.indptr.getD i 0) (P.indptr.getD (i + 1) 0)
  let sim_i := pySlice P.data (P.indptr.getD i 0) (P.indptr.getD (i + 1) 0)
  if hi : i < neighbors_i.length then
    let idx := neighbors_i.get ⟨i, hi⟩
    if idx < embedding.length then
      if hs : i < sim_i.length then
        npAverageRowScalarWeight (embedding.getD idx []) (sim_i.get ⟨i, hs⟩)
      else Except.error NpError.indexError
    else Except.error NpError.indexError
  else Except.error NpError.indexError

/-- Run the loop bodies in order, stopping at the first raised error (python
control flow). -/
def exceptRows (f : Nat → Except NpError (List ℚ)) :
    List Nat → Except NpError (List (List ℚ))
  | [] => Except.ok []
  | i :: rest =>
    match f i with
    | Except.error e => Except.error e
    | Except.ok row =>
      match exceptRows f rest with
      | Except.error e => Except.error e
      | Except.ok rows => Except.ok (row :: rows)

/-- Embedding of `weighted_mean(X, embedding, P)`: first the assertion
`P.shape[0] == n_samples and P.shape[1] == embedding.shape[0]`, then the loop
over `range(n_samples)` filling one output row per new point. -/
def weighted_mean (X : List (List ℚ)) (embedding : List (List ℚ)) (P : CSR) :
    Except NpError (List (List ℚ)) :=
  let n_samples := X.length
  if P.shape.1 = n_samples ∧ P.shape.2 = embedding.length then
    exceptRows (weightedMeanRow embedding P) (List.range n_samples)
  else Except.error NpError.assertionError

/-! ## Median extension (`median`), over `ℚ` -/

/-- Ascending sort of a list of values (the order statistics that `np.median`
partitions out). -/
def sortedAsc (l : List ℚ) : List ℚ :=
  @List.insertionSort ℚ (fun a b => a ≤ b) (fun _ _ => inferInstance) l

/-- Model of `np.median` on a one-dimensional list: the middle order statistic
for odd length, the mean of the two middle order statistics for even length. -/
def npMedian (l : List ℚ) : ℚ :=
  if l.length % 2 = 1 then (sortedAsc l).getD (l.length / 2) 0
  else ((sortedAsc l).getD (l.length / 2 - 1) 0 + (sortedAsc l).getD (l.length / 2) 0) / 2

/-- Embedding of `median(embedding, neighbors)`:
`np.median(embedding[neighbors], axis=1)`.  For a rectangular index array
`neighbors` of shape `(n, k)`, `embedding[neighbors]` has shape
`(n, k, d)` with `d` the embedding's column count, and the median over axis 1
produces, for new point `i` and coordinate `c`, the median of the `c`-th
coordinates of the `k` neighbor rows. -/
def median (embedding : List (List ℚ)) (neighbors : List (List Nat)) :
    List (List ℚ) :=
  neighbors.map (fun nbrs =>
    (List.range (embedding.headD []).length).map (fun c =>
      npMedian (nbrs.map (fun j => (embedding.getD j []).getD c 0))))

/-! # Theorems

Helper lemmas first, then one theorem per claim (with a witness where the
theorem carries hypotheses). -/

theorem getD_append_lt {α : Type} (l l2 : List α) (d : α) (i : Nat)
    (h : i < l.length) : (l ++ l2).getD i d = l.getD i d := by
  induction l generalizing i with
  | nil => simp at h
  | cons x xs ih =>
    cases i with
    | zero => simp
    | succ n => simpa using ih n (by simpa using h)

theorem getD_append_len {α : Type} (l : List α) (v d : α) :
    (l ++ [v]).getD l.length d = v := by
  induction l with
  | nil => simp
  | cons x xs ih => simp [ih]

theorem getD_set_self {α : Type} (l : List α) (i : Nat) (v d : α)
    (h : i < l.length) : (l.set i v).getD i d = v := by
  induction l generalizing i with
  | nil => simp at h
  | cons x xs ih =>
    cases i with
    | zero => simp
    | succ n => simpa using ih n (by simpa using h)

theorem range_map_getD {α : Type} (l : List α) (d : α) :
    (List.range l.length).map (fun c => l.getD c d) = l := by
  apply List.ext_getElem
  · simp
  · intro n h1 h2
    simp only [List.getElem_map, List.getElem_range]
    exact List.getD_eq_getElem l d h2

/-- C5: for a fixed seed and a fixed generator behaviour, the random
initializer consults the data matrix only through its row count, so two calls
with data matrices of the same row count and the same `n_components` produce
identical output. -/
theorem random_depends_only_on_row_count (stream : Nat → Nat → ℝ)
    (X1 X2 : List (List ℝ)) (n_components seed : Nat)
    (h : X1.length = X2.length) :
    random stream X1 n_components seed = random stream X2 n_components seed := by
  unfold random
  rw [h]

theorem random_depends_only_on_row_count_witness :
    ([[1], [2]] : List (List ℝ)).length = ([[3, 4], [5, 6]] : List (List ℝ)).length ∧
    random (fun _ _ => 0) [[1], [2]] 2 7 = random (fun _ _ => 0) [[3, 4], [5, 6]] 2 7 :=
  ⟨rfl, random_depends_only_on_row_count (fun _ _ => 0) [[1], [2]] [[3, 4], [5, 6]] 2 7 rfl⟩

/-- C1: counterexample.  With the eigensolver output `eigvals = [1, 2]`
(ascending, the order `eigsh` returns) and `eigvecs` the identity, the source
permutes the eigenvector columns to decreasing-eigenvalue order but multiplies
entrywise by the UNSORTED `eigvals`, so the column holding the largest
eigenvalue `2` (the vector `(0,1)`) is scaled by `1`, and the column holding
eigenvalue `1` is scaled by `2`; the spec's pairing (`spectralScaledSpec`)
gives a different matrix. -/
theorem spectral_scaling_counterexample :
    spectralScaled ([1, 2] : List ℚ) [[1, 0], [0, 1]] = [[0, 2], [1, 0]] ∧
    spectralScaledSpec ([1, 2] : List ℚ) [[1, 0], [0, 1]] = [[0, 1], [2, 0]] ∧
    spectralScaled ([1, 2] : List ℚ) [[1, 0], [0, 1]] ≠
      spectralScaledSpec ([1, 2] : List ℚ) [[1, 0], [0, 1]] := by
  have h1 : spectralScaled ([1, 2] : List ℚ) [[1, 0], [0, 1]] = [[0, 2], [1, 0]] := by
    norm_num [spectralScaled, scaleColsBy, colPermute, argsortDesc, argsortAsc,
      List.insertionSort, List.orderedInsert]
  have h2 : spectralScaledSpec ([1, 2] : List ℚ) [[1, 0], [0, 1]] = [[0, 1], [2, 0]] := by
    norm_num [spectralScaledSpec, scaleColsBy, colPermute, argsortDesc, argsortAsc,
      List.insertionSort, List.orderedInsert]
  refine ⟨h1, h2, ?_⟩
  rw [h1, h2]
  norm_num

/-- C2: counterexample.  On `X = [[0]]`, reference embedding `[[5, 7]]` and a
CSR similarity matrix whose single row has exactly one nonzero entry of weight
`1` at column `0`, the claim says row `0` of the output is the reference row
`[5, 7]`; instead the source's `np.average(embedding[neighbors_i[i]], axis=0,
weights=sim_i[i])` passes a one-dimensional row with a zero-dimensional
weight and raises `TypeError`. -/
theorem weighted_mean_single_neighbor_raises :
    weighted_mean [[0]] [[5, 7]] ⟨(1, 1), [1], [0], [0, 1]⟩ =
      Except.error NpError.typeError ∧
    weighted_mean [[0]] [[5, 7]] ⟨(1, 1), [1], [0], [0, 1]⟩ ≠
      Except.ok [[5, 7]] := by
  have he : weighted_mean [[0]] [[5, 7]] ⟨(1, 1), [1], [0], [0, 1]⟩ =
      Except.error NpError.typeError := by
    norm_num [weighted_mean, exceptRows, weightedMeanRow, pySlice,
      npAverageRowScalarWeight, List.range_succ]
  exact ⟨he, by rw [he]; simp⟩

theorem weightedMeanRow_ne_assertion (embedding : List (List ℚ)) (P : CSR) (i : Nat) :
    weightedMeanRow embedding P i ≠ Except.error NpError.assertionError := by
  simp only [weightedMeanRow]
  split
  · split
    · split <;> simp [npAverageRowScalarWeight]
    · simp
  · simp

theorem exceptRows_ne_assertion (f : Nat → Except NpError (List ℚ))
    (hf : ∀ i, f i ≠ Except.error NpError.assertionError) (l : List Nat) :
    exceptRows f l ≠ Except.error NpError.assertionError := by
  induction l with
  | nil => simp [exceptRows]
  | cons i rest ih =>
    unfold exceptRows
    cases h1 : f i with
    | error e =>
      intro hcon
      exact hf i (by rw [h1]; injection hcon with h; rw [h])
    | ok row =>
      cases h2 : exceptRows f rest with
      | error e =>
        intro hcon
        exact ih (by rw [h2]; injection hcon with h; rw [h])
      | ok rows => simp

/-- C7: `weighted_mean` raises the assertion error exactly when the similarity
matrix shape disagrees with the new-data row count or the reference
embedding's row count; when the shapes agree it gets past the assertion (any
later failure is a different error). -/
theorem weighted_mean_assertion_iff (X embedding : List (List ℚ)) (P : CSR) :
    weighted_mean X embedding P = Except.error NpError.assertionError ↔
      ¬(P.shape.1 = X.length ∧ P.shape.2 = embedding.length) := by
  by_cases h : P.shape.1 = X.length ∧ P.shape.2 = embedding.length
  · simp only [weighted_mean, if_pos h]
    constructor
    · intro hcon
      exact absurd hcon
        (exceptRows_ne_assertion _ (weightedMeanRow_ne_assertion embedding P) _)
    · intro hcon
      exact absurd h hcon
  · simp [weighted_mean, if_neg h, h]

/-- C6: the two shape checks at the top of `spectral` reject any input whose
stored shape is not two-dimensional or not square with a validation error, and
they do so before any computation: the outcome is the same for every
eigensolver, every entry matrix and every target dimensionality. -/
theorem spectral_shape_validation (shape : List Nat) (entries entries2 : List (List ℝ))
    (nc nc2 : Nat)
    (eigsh1 eigsh2 : Nat → List (List ℝ) → List ℝ → List ℝ × List (List ℝ))
    (h : shape.length ≠ 2 ∨ shape.getD 0 0 ≠ shape.getD 1 0) :
    (∃ err, spectral ⟨shape, entries⟩ nc eigsh1 = Except.error err) ∧
    spectral ⟨shape, entries⟩ nc eigsh1 = spectral ⟨shape, entries2⟩ nc2 eigsh2 := by
  by_cases h1 : shape.length = 2
  · have h2 : shape.getD 0 0 ≠ shape.getD 1 0 := h.resolve_left (fun hA => hA h1)
    simp only [spectral]
    rw [if_neg (not_not.mpr h1), if_neg (not_not.mpr h1), if_pos h2, if_pos h2]
    exact ⟨⟨SpectralError.notSquare, rfl⟩, rfl⟩
  · simp only [spectral]
    rw [if_pos h1, if_pos h1]
    exact ⟨⟨SpectralError.notTwoDimensional, rfl⟩, rfl⟩

theorem spectral_shape_validation_witness :
    ((([5, 3] : List Nat).length ≠ 2 ∨
        ([5, 3] : List Nat).getD 0 0 ≠ ([5, 3] : List Nat).getD 1 0) ∧
      ((∃ err, spectral ⟨[5, 3], []⟩ 2 (fun _ _ _ => ([], [])) = Except.error err) ∧
        spectral ⟨[5, 3], []⟩ 2 (fun _ _ _ => ([], [])) =
          spectral ⟨[5, 3], [[1]]⟩ 3 (fun _ _ _ => ([1], [[1]])))) :=
  ⟨Or.inr (by decide),
    spectral_shape_validation [5, 3] [] [[1]] 2 3 (fun _ _ _ => ([], []))
      (fun _ _ _ => ([1], [[1]])) (Or.inr (by decide))⟩

theorem foldlMin_le_init {α : Type} [LinearOrder α] (xs : List α) (x : α) :
    xs.foldl min x ≤ x := by
  induction xs generalizing x with
  | nil => exact le_refl x
  | cons y ys ih => exact le_trans (ih (min x y)) (min_le_left x y)

theorem foldlMin_le_mem {α : Type} [LinearOrder α] (xs : List α) (x v : α)
    (hv : v ∈ xs) : xs.foldl min x ≤ v := by
  induction xs generalizing x with
  | nil => simp at hv
  | cons y ys ih =>
    rcases List.mem_cons.mp hv with h | h
    · subst h
      rw [List.foldl_cons]
      exact le_trans (foldlMin_le_init ys (min x v)) (min_le_right x v)
    · rw [List.foldl_cons]
      exact ih (min x y) h

theorem foldlMin_mem {α : Type} [LinearOrder α] (xs : List α) (x : α) :
    xs.foldl min x = x ∨ xs.foldl min x ∈ xs := by
  induction xs generalizing x with
  | nil => exact Or.inl rfl
  | cons y ys ih =>
    rcases ih (min x y) with h | h
    · rcases min_choice x y with hm | hm
      · exact Or.inl (h.trans hm)
      · exact Or.inr (by rw [List.foldl_cons, h, hm]; exact List.mem_cons_self y ys)
    · exact Or.inr (List.mem_cons_of_mem y h)

theorem foldlMax_init_le {α : Type} [LinearOrder α] (xs : List α) (x : α) :
    x ≤ xs.foldl max x := by
  induction xs generalizing x with
  | nil => exact le_refl x
  | cons y ys ih => exact le_trans (le_max_left x y) (ih (max x y))

theorem foldlMax_mem_le {α : Type} [LinearOrder α] (xs : List α) (x v : α)
    (hv : v ∈ xs) : v ≤ xs.foldl max x := by
  induction xs generalizing x with
  | nil => simp at hv
  | cons y ys ih =>
    rcases List.mem_cons.mp hv with h | h
    · subst h
      rw [List.foldl_cons]
      exact le_trans (le_max_right x v) (foldlMax_init_le ys (max x v))
    · rw [List.foldl_cons]
      exact ih (max x y) h

theorem foldlMax_mem {α : Type} [LinearOrder α] (xs : List α) (x : α) :
    xs.foldl max x = x ∨ xs.foldl max x ∈ xs := by
  induction xs generalizing x with
  | nil => exact Or.inl rfl
  | cons y ys ih =>
    rcases ih (max x y) with h | h
    · rcases max_choice x y with hm | hm
      · exact Or.inl (h.trans hm)
      · exact Or.inr (by rw [List.foldl_cons, h, hm]; exact List.mem_cons_self y ys)
    · exact Or.inr (List.mem_cons_of_mem y h)

/-- C3: for a nonempty reference embedding, the modelled accessors really are
the minimum and maximum bounding coordinates of the occupied region along the
first coordinate axis, and `random_circular_2d` computes its placement radius
as `max(|lower extent|, |upper extent|)` of exactly those two values. -/
theorem circular_radius_uses_extents (e : RefEmbedding) (h : e.matrix ≠ []) :
    (box_x_lower_bounds_first e ∈ col0 e.matrix ∧
      ∀ v ∈ col0 e.matrix, box_x_lower_bounds_first e ≤ v) ∧
    (box_x_lower_bounds_last e ∈ col0 e.matrix ∧
      ∀ v ∈ col0 e.matrix, v ≤ box_x_lower_bounds_last e) ∧
    circularRadius e =
      max |box_x_lower_bounds_first e| |box_x_lower_bounds_last e| := by
  have hcol : col0 e.matrix ≠ [] := by
    simpa [col0] using h
  obtain ⟨x, xs, hx⟩ : ∃ x xs, col0 e.matrix = x :: xs := by
    cases hc : col0 e.matrix with
    | nil => exact absurd hc hcol
    | cons a as => exact ⟨a, as, rfl⟩
  refine ⟨⟨?_, ?_⟩, ⟨?_, ?_⟩, rfl⟩
  · rw [box_x_lower_bounds_first, hx, listMinD]
    rcases foldlMin_mem xs x with hm | hm
    · rw [hm]; exact List.mem_cons_self x xs
    · exact List.mem_cons_of_mem x hm
  · intro v hv
    rw [box_x_lower_bounds_first, hx, listMinD]
    rw [hx] at hv
    rcases List.mem_cons.mp hv with h1 | h1
    · exact h1 ▸ foldlMin_le_init xs x
    · exact foldlMin_le_mem xs x v h1
  · rw [box_x_lower_bounds_last, hx, listMaxD]
    rcases foldlMax_mem xs x with hm | hm
    · rw [hm]; exact List.mem_cons_self x xs
    · exact List.mem_cons_of_mem x hm
  · intro v hv
    rw [box_x_lower_bounds_last, hx, listMaxD]
    rw [hx] at hv
    rcases List.mem_cons.mp hv with h1 | h1
    · exact h1 ▸ foldlMax_init_le xs x
    · exact foldlMax_mem_le xs x v h1

theorem circular_radius_uses_extents_witness :
    (RefEmbedding.mk [[1], [-2]]).matrix ≠ [] ∧
    ((box_x_lower_bounds_first (RefEmbedding.mk [[1], [-2]]) ∈
        col0 (RefEmbedding.mk [[1], [-2]]).matrix ∧
      ∀ v ∈ col0 (RefEmbedding.mk [[1], [-2]]).matrix,
        box_x_lower_bounds_first (RefEmbedding.mk [[1], [-2]]) ≤ v) ∧
    (box_x_lower_bounds_last (RefEmbedding.mk [[1], [-2]]) ∈
        col0 (RefEmbedding.mk [[1], [-2]]).matrix ∧
      ∀ v ∈ col0 (RefEmbedding.mk [[1], [-2]]).matrix,
        v ≤ box_x_lower_bounds_last (RefEmbedding.mk [[1], [-2]])) ∧
    circularRadius (RefEmbedding.mk [[1], [-2]]) =
      max |box_x_lower_bounds_first (RefEmbedding.mk [[1], [-2]])|
        |box_x_lower_bounds_last (RefEmbedding.mk [[1], [-2]])|) :=
  ⟨by simp, circular_radius_uses_extents (RefEmbedding.mk [[1], [-2]]) (by simp)⟩

theorem circularRadius_nonneg (e : RefEmbedding) : 0 ≤ circularRadius e :=
  le_trans (abs_nonneg (box_x_lower_bounds_first e)) (le_max_left _ _)

theorem euclidNorm2d_polar (r t : ℝ) (hr : 0 ≤ r) :
    euclidNorm2d [r * Real.sin t, r * Real.cos t] = r := by
  have hsq : (r * Real.sin t) ^ 2 + (r * Real.cos t) ^ 2 = r ^ 2 := by
    rw [mul_pow, mul_pow, ← mul_add, Real.sin_sq_add_cos_sq, mul_one]
  simp only [euclidNorm2d, List.getD_cons_zero, List.getD_cons_succ]
  rw [hsq, Real.sqrt_sq hr]

/-- C8: every output row of `random_circular_2d` is a 2-dimensional point;
in filled-disc mode its Euclidean norm is at most the computed radius, and in
boundary-only mode the norm equals the radius exactly, provided the uniform
draws respect their `[0, radius ** 2]` sampling interval. -/
theorem random_circular_norms (n : Nat) (e : RefEmbedding) (u phi : Nat → ℝ)
    (hu : ∀ i, 0 ≤ u i ∧ u i ≤ circularRadius e ^ 2) :
    (∀ row ∈ random_circular_2d n e u phi false,
        row.length = 2 ∧ euclidNorm2d row ≤ circularRadius e) ∧
    (∀ row ∈ random_circular_2d n e u phi true,
        row.length = 2 ∧ euclidNorm2d row = circularRadius e) := by
  constructor
  · intro row hrow
    simp only [random_circular_2d, List.mem_map, List.mem_range, Bool.false_eq_true,
      if_false] at hrow
    obtain ⟨i, _, hrow2⟩ := hrow
    rw [← hrow2]
    refine ⟨rfl, ?_⟩
    rw [euclidNorm2d_polar (Real.sqrt (u i)) (phi i) (Real.sqrt_nonneg (u i))]
    calc Real.sqrt (u i) ≤ Real.sqrt (circularRadius e ^ 2) :=
          Real.sqrt_le_sqrt (hu i).2
      _ = circularRadius e := Real.sqrt_sq (circularRadius_nonneg e)
  · intro row hrow
    simp only [random_circular_2d, List.mem_map, List.mem_range, if_true] at hrow
    obtain ⟨i, _, hrow2⟩ := hrow
    rw [← hrow2]
    exact ⟨rfl, euclidNorm2d_polar (circularRadius e) (phi i) (circularRadius_nonneg e)⟩

theorem random_circular_norms_witness :
    (∀ i : Nat, 0 ≤ (fun _ => (0 : ℝ)) i ∧
        (fun _ => (0 : ℝ)) i ≤ circularRadius (RefEmbedding.mk [[1], [-2]]) ^ 2) ∧
    ((∀ row ∈ random_circular_2d 1 (RefEmbedding.mk [[1], [-2]])
          (fun _ => 0) (fun _ => 0) false,
        row.length = 2 ∧ euclidNorm2d row ≤ circularRadius (RefEmbedding.mk [[1], [-2]])) ∧
      (∀ row ∈ random_circular_2d 1 (RefEmbedding.mk [[1], [-2]])
          (fun _ => 0) (fun _ => 0) true,
        row.length = 2 ∧ euclidNorm2d row = circularRadius (RefEmbedding.mk [[1], [-2]]))) :=
  ⟨fun _ => ⟨le_refl 0, sq_nonneg _⟩,
    random_circular_norms 1 (RefEmbedding.mk [[1], [-2]]) (fun _ => 0) (fun _ => 0)
      (fun _ => ⟨le_refl 0, sq_nonneg _⟩)⟩

theorem getD_map_div (row : List ℝ) (j : Nat) (c : ℝ) :
    (row.map (fun v => v / c)).getD j 0 = row.getD j 0 / c := by
  by_cases hj : j < row.length
  · rw [List.getD_eq_getElem _ _ (by simpa using hj), List.getD_eq_getElem _ _ hj,
      List.getElem_map]
  · rw [List.getD_eq_default _ _ (by simpa using not_lt.mp hj),
      List.getD_eq_default _ _ (not_lt.mp hj), zero_div]

theorem getD_map_rows (m : List (List ℝ)) (f : ℝ → ℝ) (i : Nat) :
    (m.map (List.map f)).getD i [] = (m.getD i []).map f := by
  by_cases hi : i < m.length
  · rw [List.getD_eq_getElem _ _ (by simpa using hi), List.getD_eq_getElem _ _ hi,
      List.getElem_map]
  · rw [List.getD_eq_default _ _ (by simpa using not_lt.mp hi),
      List.getD_eq_default _ _ (not_lt.mp hi), List.map_nil]

theorem sum_map_div (l : List ℝ) (c : ℝ) :
    (l.map (fun v => v / c)).sum = l.sum / c := by
  induction l with
  | nil => simp
  | cons x xs ih => simp [ih, add_div]

theorem listMean_map_div (l : List ℝ) (c : ℝ) :
    listMean (l.map (fun v => v / c)) = listMean l / c := by
  unfold listMean
  rw [List.length_map, sum_map_div, div_right_comm]

theorem sq_deviations_nonneg (l : List ℝ) (a : ℝ) :
    0 ≤ (l.map (fun v => (v - a) ^ 2)).sum := by
  apply List.sum_nonneg
  intro x hx
  obtain ⟨v, _, hv⟩ := List.mem_map.mp hx
  exact hv ▸ sq_nonneg (v - a)

theorem npStd_map_div (l : List ℝ) (c : ℝ) (hc : 0 < c) :
    npStd (l.map (fun v => v / c)) = npStd l / c := by
  unfold npStd
  rw [listMean_map_div, List.length_map]
  have hmap : (l.map (fun v => v / c)).map (fun v => (v - listMean l / c) ^ 2)
      = (l.map (fun v => (v - listMean l) ^ 2)).map (fun v => v / c ^ 2) := by
    rw [List.map_map, List.map_map]
    apply List.map_congr_left
    intro v _
    show (v / c - listMean l / c) ^ 2 = (v - listMean l) ^ 2 / c ^ 2
    rw [div_sub_div_same, div_pow]
  rw [hmap, sum_map_div, div_right_comm,
    Real.sqrt_div (div_nonneg (sq_deviations_nonneg l _) (Nat.cast_nonneg _)) (c ^ 2),
    Real.sqrt_sq hc.le]

theorem col0_rescale (m : List (List ℝ)) :
    col0 (rescale m) =
      (col0 m).map (fun v => v / (npStd (col0 m) * 10000)) := by
  unfold col0 rescale
  rw [List.map_map, List.map_map]
  apply List.map_congr_left
  intro row _
  exact getD_map_div row 0 _

theorem rowDist_map_div (m : List (List ℝ)) (i k : Nat) (c : ℝ) (hc : 0 < c) :
    rowDist (m.map (List.map (fun v => v / c))) i k = rowDist m i k / c := by
  unfold rowDist
  rw [getD_map_rows, getD_map_rows, List.zip_map, List.map_map]
  have hmap : ((fun p : ℝ × ℝ => (p.1 - p.2) ^ 2) ∘
        Prod.map (fun v => v / c) (fun v => v / c))
      = fun p : ℝ × ℝ => ((p.1 - p.2) ^ 2) / c ^ 2 := by
    funext p
    show (p.1 / c - p.2 / c) ^ 2 = (p.1 - p.2) ^ 2 / c ^ 2
    rw [div_sub_div_same, div_pow]
  rw [hmap]
  have hsplit : ((m.getD i []).zip (m.getD k [])).map
        (fun p : ℝ × ℝ => ((p.1 - p.2) ^ 2) / c ^ 2)
      = (((m.getD i []).zip (m.getD k [])).map
          (fun p : ℝ × ℝ => (p.1 - p.2) ^ 2)).map (fun v => v / c ^ 2) := by
    rw [List.map_map]
    rfl
  have hsum : 0 ≤ (((m.getD i []).zip (m.getD k [])).map
      (fun p : ℝ × ℝ => (p.1 - p.2) ^ 2)).sum := by
    apply List.sum_nonneg
    intro x hx
    obtain ⟨p, _, hp⟩ := List.mem_map.mp hx
    exact hp ▸ sq_nonneg (p.1 - p.2)
  rw [hsplit, sum_map_div, Real.sqrt_div hsum (c ^ 2), Real.sqrt_sq hc.le]

/-- C4: for an embedding matrix whose first column has nonzero standard
deviation, `rescale` divides every entry by the single scalar
`10000 * np.std(x[:, 0])`; consequently the first column of the result has
standard deviation `1 / 10000`, and all pairwise distance ratios between rows
are preserved exactly (stated cross-multiplied so no denominator vanishes). -/
theorem rescale_contract (m : List (List ℝ)) (h : npStd (col0 m) ≠ 0) :
    (∀ i j, ((rescale m).getD i []).getD j 0 =
        ((m.getD i []).getD j 0) / (npStd (col0 m) * 10000)) ∧
    npStd (col0 (rescale m)) = 1 / 10000 ∧
    (∀ i j k l, rowDist (rescale m) i j * rowDist m k l =
        rowDist m i j * rowDist (rescale m) k l) := by
  have hstd : 0 < npStd (col0 m) :=
    lt_of_le_of_ne (Real.sqrt_nonneg _) (Ne.symm h)
  have hc : 0 < npStd (col0 m) * 10000 := by positivity
  refine ⟨?_, ?_, ?_⟩
  · intro i j
    show ((m.map (List.map fun v => v / (npStd (col0 m) * 10000))).getD i []).getD j 0 = _
    rw [getD_map_rows, getD_map_div]
  · rw [col0_rescale, npStd_map_div _ _ hc]
    field_simp
  · intro i j k l
    have hd1 : rowDist (rescale m) i j = rowDist m i j / (npStd (col0 m) * 10000) :=
      rowDist_map_div m i j _ hc
    have hd2 : rowDist (rescale m) k l = rowDist m k l / (npStd (col0 m) * 10000) :=
      rowDist_map_div m k l _ hc
    rw [hd1, hd2]
    ring

theorem npStd_col01_pos : (0 : ℝ) < npStd (col0 ([[0], [1]] : List (List ℝ))) := by
  rw [show col0 ([[0], [1]] : List (List ℝ)) = [0, 1] from rfl]
  unfold npStd
  apply Real.sqrt_pos.mpr
  norm_num [listMean]

theorem rescale_contract_witness :
    npStd (col0 ([[0], [1]] : List (List ℝ))) ≠ 0 ∧
    ((∀ i j, ((rescale [[0], [1]]).getD i []).getD j 0 =
        ((([[0], [1]] : List (List ℝ)).getD i []).getD j 0) /
          (npStd (col0 ([[0], [1]] : List (List ℝ))) * 10000)) ∧
      npStd (col0 (rescale [[0], [1]])) = 1 / 10000 ∧
      (∀ i j k l, rowDist (rescale [[0], [1]]) i j * rowDist ([[0], [1]] : List (List ℝ)) k l =
          rowDist ([[0], [1]] : List (List ℝ)) i j * rowDist (rescale [[0], [1]]) k l)) :=
  ⟨ne_of_gt npStd_col01_pos, rescale_contract [[0], [1]] (ne_of_gt npStd_col01_pos)⟩

/-- C10: calling `rescale` with `inplace=True` returns the very buffer that
was passed in, overwritten with the rescaled content (and allocates nothing);
with `inplace=False` it returns a freshly allocated buffer holding the
rescaled content while every existing buffer, in particular the caller's, is
left unchanged. -/
theorem rescale_inplace_frame (s : Store) (ref : Nat)
    (href : ref < s.bufs.length)
    (_h : npStd (col0 (s.bufs.getD ref [])) ≠ 0) :
    ((rescaleCall s ref true).2 = ref ∧
      (rescaleCall s ref true).1.bufs.getD ref [] = rescale (s.bufs.getD ref []) ∧
      (rescaleCall s ref true).1.bufs.length = s.bufs.length) ∧
    ((rescaleCall s ref false).2 = s.bufs.length ∧
      (rescaleCall s ref false).2 ≠ ref ∧
      (rescaleCall s ref false).1.bufs.getD ((rescaleCall s ref false).2) [] =
        rescale (s.bufs.getD ref []) ∧
      ∀ i, i < s.bufs.length →
        (rescaleCall s ref false).1.bufs.getD i [] = s.bufs.getD i []) := by
  refine ⟨⟨rfl, ?_, ?_⟩, rfl, ne_of_gt href, ?_, ?_⟩
  · show (s.bufs.set ref (rescale (s.bufs.getD ref []))).getD ref [] = _
    exact getD_set_self _ _ _ _ href
  · show (s.bufs.set ref (rescale (s.bufs.getD ref []))).length = _
    exact List.length_set s.bufs ref _
  · show (s.bufs ++ [rescale (s.bufs.getD ref [])]).getD s.bufs.length [] = _
    exact getD_append_len _ _ _
  · intro i hi
    show (s.bufs ++ [rescale (s.bufs.getD ref [])]).getD i [] = _
    exact getD_append_lt _ _ _ _ hi

theorem rescale_inplace_frame_witness :
    0 < (Store.mk [[[0], [1]]]).bufs.length ∧
    npStd (col0 ((Store.mk [[[0], [1]]]).bufs.getD 0 [])) ≠ 0 ∧
    (((rescaleCall (Store.mk [[[0], [1]]]) 0 true).2 = 0 ∧
      (rescaleCall (Store.mk [[[0], [1]]]) 0 true).1.bufs.getD 0 [] =
        rescale ((Store.mk [[[0], [1]]]).bufs.getD 0 []) ∧
      (rescaleCall (Store.mk [[[0], [1]]]) 0 true).1.bufs.length =
        (Store.mk [[[0], [1]]]).bufs.length) ∧
    ((rescaleCall (Store.mk [[[0], [1]]]) 0 false).2 =
        (Store.mk [[[0], [1]]]).bufs.length ∧
      (rescaleCall (Store.mk [[[0], [1]]]) 0 false).2 ≠ 0 ∧
      (rescaleCall (Store.mk [[[0], [1]]]) 0 false).1.bufs.getD
          ((rescaleCall (Store.mk [[[0], [1]]]) 0 false).2) [] =
        rescale ((Store.mk [[[0], [1]]]).bufs.getD 0 []) ∧
      ∀ i, i < (Store.mk [[[0], [1]]]).bufs.length →
        (rescaleCall (Store.mk [[[0], [1]]]) 0 false).1.bufs.getD i [] =
          (Store.mk [[[0], [1]]]).bufs.getD i [])) :=
  ⟨Nat.one_pos, ne_of_gt npStd_col01_pos,
    rescale_inplace_frame (Store.mk [[[0], [1]]]) 0 Nat.one_pos
      (ne_of_gt npStd_col01_pos)⟩

theorem getD_mem_of_lt {α : Type} (l : List α) (d0 : α) (i : Nat)
    (h : i < l.length) : l.getD i d0 ∈ l := by
  rw [List.getD_eq_getElem _ _ h]
  exact List.getElem_mem h

theorem sortedAsc_perm (l : List ℚ) : List.Perm (sortedAsc l) l :=
  List.perm_insertionSort (fun a b => a ≤ b) l

theorem sortedAsc_length (l : List ℚ) : (sortedAsc l).length = l.length :=
  (sortedAsc_perm l).length_eq

theorem npMedian_singleton (x : ℚ) : npMedian [x] = x := by
  simp [npMedian, sortedAsc, List.insertionSort, List.orderedInsert]

theorem npMedian_le {l : List ℚ} {b : ℚ} (hne : l ≠ []) (hb : ∀ v ∈ l, v ≤ b) :
    npMedian l ≤ b := by
  have hlpos : 0 < l.length := List.length_pos.mpr hne
  have hs : ∀ i, i < l.length → (sortedAsc l).getD i 0 ≤ b := by
    intro i hi
    apply hb
    exact (sortedAsc_perm l).subset
      (getD_mem_of_lt _ 0 i (by rw [sortedAsc_length]; exact hi))
  unfold npMedian
  split
  · exact hs _ (Nat.div_lt_self hlpos one_lt_two)
  · have h1 : l.length / 2 < l.length := Nat.div_lt_self hlpos one_lt_two
    have h2 : l.length / 2 - 1 < l.length := lt_of_le_of_lt (Nat.sub_le _ _) h1
    have hb1 := hs _ h2
    have hb2 := hs _ h1
    linarith

theorem npMedian_ge {l : List ℚ} {b : ℚ} (hne : l ≠ []) (hb : ∀ v ∈ l, b ≤ v) :
    b ≤ npMedian l := by
  have hlpos : 0 < l.length := List.length_pos.mpr hne
  have hs : ∀ i, i < l.length → b ≤ (sortedAsc l).getD i 0 := by
    intro i hi
    apply hb
    exact (sortedAsc_perm l).subset
      (getD_mem_of_lt _ 0 i (by rw [sortedAsc_length]; exact hi))
  unfold npMedian
  split
  · exact hs _ (Nat.div_lt_self hlpos one_lt_two)
  · have h1 : l.length / 2 < l.length := Nat.div_lt_self hlpos one_lt_two
    have h2 : l.length / 2 - 1 < l.length := lt_of_le_of_lt (Nat.sub_le _ _) h1
    have hb1 := hs _ h2
    have hb2 := hs _ h1
    linarith

/-- C9: `median` returns one row per new point; with exactly one neighbor per
point the output row is exactly that neighbor's reference row, and in general
every output coordinate lies between any lower bound and any upper bound of
the neighbors' corresponding coordinates (in particular between their minimum
and maximum). -/
theorem median_bounds (embedding : List (List ℚ)) (neighbors : List (List Nat))
    (hrect : ∀ row ∈ embedding, row.length = (embedding.headD []).length)
    (hidx : ∀ nbrs ∈ neighbors, ∀ j ∈ nbrs, j < embedding.length) :
    (median embedding neighbors).length = neighbors.length ∧
    (∀ i, i < neighbors.length → (neighbors.getD i []).length = 1 →
      (median embedding neighbors).getD i [] =
        embedding.getD ((neighbors.getD i []).getD 0 0) []) ∧
    (∀ i, i < neighbors.length → neighbors.getD i [] ≠ [] →
      ∀ c, c < (embedding.headD []).length →
        (∀ b, (∀ j ∈ neighbors.getD i [], (embedding.getD j []).getD c 0 ≤ b) →
            ((median embedding neighbors).getD i []).getD c 0 ≤ b) ∧
        (∀ b, (∀ j ∈ neighbors.getD i [], b ≤ (embedding.getD j []).getD c 0) →
            b ≤ ((median embedding neighbors).getD i []).getD c 0)) := by
  have hrow : ∀ i, i < neighbors.length → (median embedding neighbors).getD i [] =
      (List.range (embedding.headD []).length).map (fun c =>
        npMedian ((neighbors.getD i []).map
          (fun j => (embedding.getD j []).getD c 0))) := by
    intro i hi
    unfold median
    rw [List.getD_eq_getElem _ _ (by simpa using hi), List.getElem_map,
      List.getD_eq_getElem neighbors [] hi]
  have hentry : ∀ i, i < neighbors.length →
      ∀ c, c < (embedding.headD []).length →
      ((median embedding neighbors).getD i []).getD c 0 =
        npMedian ((neighbors.getD i []).map
          (fun j => (embedding.getD j []).getD c 0)) := by
    intro i hi c hc
    rw [hrow i hi, List.getD_eq_getElem _ _ (by simpa using hc), List.getElem_map,
      List.getElem_range]
  refine ⟨?_, ?_, ?_⟩
  · unfold median
    exact List.length_map neighbors _
  · intro i hi hlen1
    obtain ⟨j0, hj0⟩ := List.length_eq_one.mp hlen1
    have hj0lt : j0 < embedding.length := by
      apply hidx (neighbors.getD i []) (getD_mem_of_lt neighbors [] i hi) j0
      rw [hj0]
      exact List.mem_singleton_self j0
    have hrowlen : (embedding.getD j0 []).length = (embedding.headD []).length :=
      hrect _ (getD_mem_of_lt embedding [] j0 hj0lt)
    rw [hrow i hi, hj0]
    simp only [List.map_cons, List.map_nil, npMedian_singleton]
    rw [← hrowlen]
    exact range_map_getD (embedding.getD j0 []) 0
  · intro i hi hne c hc
    have hmede := hentry i hi c hc
    have hvalsne : (neighbors.getD i []).map
        (fun j => (embedding.getD j []).getD c 0) ≠ [] := by
      intro hcon
      exact hne (List.map_eq_nil_iff.mp hcon)
    constructor
    · intro b hb
      rw [hmede]
      apply npMedian_le hvalsne
      intro v hv
      obtain ⟨j, hjmem, hjv⟩ := List.mem_map.mp hv
      exact hjv ▸ hb j hjmem
    · intro b hb
      rw [hmede]
      apply npMedian_ge hvalsne
      intro v hv
      obtain ⟨j, hjmem, hjv⟩ := List.mem_map.mp hv
      exact hjv ▸ hb j hjmem

theorem median_bounds_witness :
    (∀ row ∈ ([[1, 2], [3, 4]] : List (List ℚ)),
      row.length = (([[1, 2], [3, 4]] : List (List ℚ)).headD []).length) ∧
    (∀ nbrs ∈ ([[0], [1]] : List (List Nat)), ∀ j ∈ nbrs,
      j < ([[1, 2], [3, 4]] : List (List ℚ)).length) ∧
    ((median [[1, 2], [3, 4]] [[0], [1]]).length =
        ([[0], [1]] : List (List Nat)).length ∧
    (∀ i, i < ([[0], [1]] : List (List Nat)).length →
        (([[0], [1]] : List (List Nat)).getD i []).length = 1 →
      (median [[1, 2], [3, 4]] [[0], [1]]).getD i [] =
        ([[1, 2], [3, 4]] : List (List ℚ)).getD
          ((([[0], [1]] : List (List Nat)).getD i []).getD 0 0) []) ∧
    (∀ i, i < ([[0], [1]] : List (List Nat)).length →
        ([[0], [1]] : List (List Nat)).getD i [] ≠ [] →
      ∀ c, c < (([[1, 2], [3, 4]] : List (List ℚ)).headD []).length →
        (∀ b, (∀ j ∈ ([[0], [1]] : List (List Nat)).getD i [],
              (([[1, 2], [3, 4]] : List (List ℚ)).getD j []).getD c 0 ≤ b) →
            ((median [[1, 2], [3, 4]] [[0], [1]]).getD i []).getD c 0 ≤ b) ∧
        (∀ b, (∀ j ∈ ([[0], [1]] : List (List Nat)).getD i [],
              b ≤ (([[1, 2], [3, 4]] : List (List ℚ)).getD j []).getD c 0) →
            b ≤ ((median [[1, 2], [3, 4]] [[0], [1]]).getD i []).getD c 0))) :=
  ⟨by simp, by simp, median_bounds [[1, 2], [3, 4]] [[0], [1]] (by simp) (by simp)⟩

end OpenTSNE
